import Mathlib

/-!  Verification of `src/rattleback/ellipsoid_no_slip_steady.py`.

The script symbolically derives the steady-motion equations of a rigid
ellipsoid rolling without slip on a plane (Kane's method, via SymPy), checks
three derivation invariants with assertions, extracts the four reduced
equations `h[0..3]` and their eight shape derivatives `dh[0..7]`, runs
common-subexpression elimination twice and writes the generated code once.

The embedding below mirrors the SymPy pipeline on a first-order term language:
scalar expressions are trees over the script's symbols, vectors are triples of
components on the yaw frame `Y` basis (the derivation never produces a scalar
through the inertial frame, so the yaw-frame basis is a faithful common basis;
SymPy keeps the same measure numbers spread over the `Y`/`L`/`R` bases).
Operations that SymPy performs with automatic evaluation (substitution,
differentiation, arithmetic on vectors) use evaluation-preserving smart
constructors that fold the same trivial `0`/`1` arithmetic SymPy folds.
Semantic statements are phrased through `Ex.eval`, the interpretation of a
tree at a real valuation of the symbols.  -/

namespace EllipsoidSteady

/-- Symbolic atoms of the derivation: the generalized coordinates `q:3`, their
first and second time derivatives, the auxiliary coordinates `r:3` and their
derivatives, the constants declared at the top of the script, the plain
(non-time-varying) symbols introduced by `symbol_dict` for code output, and
the numbered CSE temporaries `z0, z1, ...`. -/
inductive V : Type where
  | q0 | q1 | q2
  | qd0 | qd1 | qd2
  | qdd0 | qdd1 | qdd2
  | r0 | r1 | r2
  | rd0 | rd1 | rd2
  | g | a | b | c | d | e | f | s
  | m | Ixx | Iyy | Izz | Ixy | Iyz | Ixz
  | pq1 | pq2 | pqd0 | prx | pry | prz
  | z (n : Nat)
deriving DecidableEq

/-- Symbolic scalar expressions: the fragment of SymPy's expression language
the script actually uses (rational constants are only ever integers here). -/
inductive Ex : Type where
  | var (v : V)
  | num (k : Int)
  | add (x y : Ex)
  | mul (x y : Ex)
  | div (x y : Ex)
  | pow (x : Ex) (n : Nat)
  | sin (x : Ex)
  | cos (x : Ex)
  | sqrt (x : Ex)
deriving DecidableEq

namespace Ex

/-- Interpretation of an expression at a real valuation of the symbols.
Division is the (total) real division, `sqrt` the real square root. -/
noncomputable def eval (ρ : V → ℝ) : Ex → ℝ
  | var v => ρ v
  | num k => (k : ℝ)
  | add x y => x.eval ρ + y.eval ρ
  | mul x y => x.eval ρ * y.eval ρ
  | div x y => x.eval ρ / y.eval ρ
  | pow x n => (x.eval ρ) ^ n
  | sin x => Real.sin (x.eval ρ)
  | cos x => Real.cos (x.eval ρ)
  | sqrt x => Real.sqrt (x.eval ρ)

/-- Addition with the zero/constant folding SymPy's `Add` performs
automatically. -/
def addS : Ex → Ex → Ex
  | num 0, y => y
  | x, num 0 => x
  | num j, num k => num (j + k)
  | x, y => add x y

/-- Multiplication with the zero/one/constant folding SymPy's `Mul` performs
automatically. -/
def mulS : Ex → Ex → Ex
  | num 0, _ => num 0
  | _, num 0 => num 0
  | num 1, y => y
  | x, num 1 => x
  | num j, num k => num (j * k)
  | x, y => mul x y

/-- Division with the trivial folding SymPy performs automatically. -/
def divS : Ex → Ex → Ex
  | num 0, _ => num 0
  | x, num 1 => x
  | x, y => div x y

/-- Powers with the trivial folding SymPy performs automatically. -/
def powS : Ex → Nat → Ex
  | _, 0 => num 1
  | x, 1 => x
  | num j, n => num (j ^ n)
  | x, n => pow x n

/-- Negation, as SymPy represents it: multiplication by `-1`. -/
def negS (x : Ex) : Ex := mulS (num (-1)) x

/-- Subtraction, as SymPy represents it: `x + (-1) * y`. -/
def subS (x y : Ex) : Ex := addS x (negS y)

/-- Generic derivation along a map `dv` assigning to every symbol its
derivative expression; the standard rules of SymPy's `diff`, with the
automatic evaluation folded in by the smart constructors. -/
def derivA (dv : V → Ex) : Ex → Ex
  | var w => dv w
  | num _ => num 0
  | add x y => addS (derivA dv x) (derivA dv y)
  | mul x y => addS (mulS (derivA dv x) y) (mulS x (derivA dv y))
  | div x y =>
      divS (subS (mulS (derivA dv x) y) (mulS x (derivA dv y))) (mulS y y)
  | pow x n =>
      if n = 0 then num 0
      else mulS (mulS (num n) (powS x (n - 1))) (derivA dv x)
  | sin x => mulS (cos x) (derivA dv x)
  | cos x => mulS (negS (sin x)) (derivA dv x)
  | sqrt x => divS (derivA dv x) (mulS (num 2) (sqrt x))

/-- Symbolic derivative with respect to one symbol, the other symbols held
fixed (SymPy's `expr.diff(v)` for the symbols the script differentiates by,
which never appear inside each other). -/
def pdiff (v : V) : Ex → Ex :=
  derivA (fun w => if w = v then num 1 else num 0)

/-- The time derivative of each symbol: the generalized coordinates and the
auxiliary coordinates are the script's `dynamicsymbols` (functions of `t`),
everything else is constant.  Second derivatives are never differentiated
again by the script. -/
def dtv : V → Ex
  | V.q0 => var V.qd0
  | V.q1 => var V.qd1
  | V.q2 => var V.qd2
  | V.qd0 => var V.qdd0
  | V.qd1 => var V.qdd1
  | V.qd2 => var V.qdd2
  | V.r0 => var V.rd0
  | V.r1 => var V.rd1
  | V.r2 => var V.rd2
  | _ => num 0

/-- Total time derivative (SymPy's `expr.diff(t)` on expressions in
`dynamicsymbols`). -/
def dt : Ex → Ex := derivA dtv

/-- Simultaneous substitution of symbols by expressions (SymPy's
`expr.subs(dict)` for a dictionary whose keys are symbols), with SymPy's
automatic evaluation of the rebuilt nodes. -/
def substD (σ : List (V × Ex)) : Ex → Ex
  | var w =>
      match List.lookup w σ with
      | some r => r
      | none => var w
  | num k => num k
  | add x y => addS (substD σ x) (substD σ y)
  | mul x y => mulS (substD σ x) (substD σ y)
  | div x y => divS (substD σ x) (substD σ y)
  | pow x n => powS (substD σ x) n
  | sin x => sin (substD σ x)
  | cos x => cos (substD σ x)
  | sqrt x => sqrt (substD σ x)

/-- Literal substitution of one symbol by an expression, with no automatic
re-evaluation: this is the "substitute the table back" reading of the CSE
round-trip contract. -/
def substVar (v : V) (r : Ex) : Ex → Ex
  | var w => if w = v then r else var w
  | num k => num k
  | add x y => add (substVar v r x) (substVar v r y)
  | mul x y => mul (substVar v r x) (substVar v r y)
  | div x y => div (substVar v r x) (substVar v r y)
  | pow x n => pow (substVar v r x) n
  | sin x => sin (substVar v r x)
  | cos x => cos (substVar v r x)
  | sqrt x => sqrt (substVar v r x)

/-- Replace every occurrence of the subexpression `tgt` by `rep` (top down;
`tgt` cannot occur strictly inside itself). -/
def replaceAll (tgt rep : Ex) : Ex → Ex
  | var w => if var w = tgt then rep else var w
  | num k => if num k = tgt then rep else num k
  | add x y =>
      if add x y = tgt then rep
      else add (replaceAll tgt rep x) (replaceAll tgt rep y)
  | mul x y =>
      if mul x y = tgt then rep
      else mul (replaceAll tgt rep x) (replaceAll tgt rep y)
  | div x y =>
      if div x y = tgt then rep
      else div (replaceAll tgt rep x) (replaceAll tgt rep y)
  | pow x n => if pow x n = tgt then rep else pow (replaceAll tgt rep x) n
  | sin x => if sin x = tgt then rep else sin (replaceAll tgt rep x)
  | cos x => if cos x = tgt then rep else cos (replaceAll tgt rep x)
  | sqrt x => if sqrt x = tgt then rep else sqrt (replaceAll tgt rep x)

/-- Does the symbol `v` occur in the expression? -/
def occursB (v : V) : Ex → Bool
  | var w => w = v
  | num _ => false
  | add x y => occursB v x || occursB v y
  | mul x y => occursB v x || occursB v y
  | div x y => occursB v x || occursB v y
  | pow x _ => occursB v x
  | sin x => occursB v x
  | cos x => occursB v x
  | sqrt x => occursB v x

/-- No CSE temporary with index `≥ k` occurs in the expression. -/
def zFree (k : Nat) : Ex → Bool
  | var (V.z j) => j < k
  | var _ => true
  | num _ => true
  | add x y => zFree k x && zFree k y
  | mul x y => zFree k x && zFree k y
  | div x y => zFree k x && zFree k y
  | pow x _ => zFree k x
  | sin x => zFree k x
  | cos x => zFree k x
  | sqrt x => zFree k x

/-- Degree combination for a sum: both sides must carry the same degree. -/
def hdAdd (ox oy : Option Nat) : Option Nat :=
  ox.bind fun i => oy.bind fun j => if i = j then some i else none

/-- Degree combination for a product: degrees add. -/
def hdMul (ox oy : Option Nat) : Option Nat :=
  ox.bind fun i => oy.bind fun j => some (i + j)

/-- Degree combination for a quotient: the denominator must have degree 0. -/
def hdDiv (ox oy : Option Nat) : Option Nat :=
  ox.bind fun i => oy.bind fun j => if j = 0 then some i else none

/-- Degree combination for a transcendental function: the argument must have
degree 0. -/
def hdArg (ox : Option Nat) : Option Nat :=
  ox.bind fun j => if j = 0 then some 0 else none

/-- Degree combination for a power: the degree is multiplied. -/
def hdPow (n : Nat) (ox : Option Nat) : Option Nat :=
  ox.map (fun i => i * n)

/-- Homogeneity degree of an expression in the symbol `v`: `some n` certifies
that scaling `v` by `x` scales the value by `x ^ n` (see
`eval_update_of_hdeg`). -/
def hdeg (v : V) : Ex → Option Nat
  | var w => if w = v then some 1 else some 0
  | num _ => some 0
  | add x y => hdAdd (hdeg v x) (hdeg v y)
  | mul x y => hdMul (hdeg v x) (hdeg v y)
  | div x y => hdDiv (hdeg v x) (hdeg v y)
  | pow x n => hdPow n (hdeg v x)
  | sin x => hdArg (hdeg v x)
  | cos x => hdArg (hdeg v x)
  | sqrt x => hdArg (hdeg v x)

/-- All subexpressions of an expression (the expression itself included). -/
def subAll : Ex → List Ex
  | var w => [var w]
  | num k => [num k]
  | add x y => add x y :: (subAll x ++ subAll y)
  | mul x y => mul x y :: (subAll x ++ subAll y)
  | div x y => div x y :: (subAll x ++ subAll y)
  | pow x n => pow x n :: subAll x
  | sin x => sin x :: subAll x
  | cos x => cos x :: subAll x
  | sqrt x => sqrt x :: subAll x

/-- Is the expression a compound (not a bare symbol or number)?  Only
compounds are worth naming as CSE temporaries. -/
def nonAtom : Ex → Bool
  | var _ => false
  | num _ => false
  | _ => true

/-- Number of occurrences of `tgt` as a subexpression. -/
def countE (tgt : Ex) : Ex → Nat
  | var w => if var w = tgt then 1 else 0
  | num k => if num k = tgt then 1 else 0
  | add x y => (if add x y = tgt then 1 else 0) + (countE tgt x + countE tgt y)
  | mul x y => (if mul x y = tgt then 1 else 0) + (countE tgt x + countE tgt y)
  | div x y => (if div x y = tgt then 1 else 0) + (countE tgt x + countE tgt y)
  | pow x n => (if pow x n = tgt then 1 else 0) + countE tgt x
  | sin x => (if sin x = tgt then 1 else 0) + countE tgt x
  | cos x => (if cos x = tgt then 1 else 0) + countE tgt x
  | sqrt x => (if sqrt x = tgt then 1 else 0) + countE tgt x

/-- The denominators of all divisions occurring in the expression. -/
def denoms : Ex → List Ex
  | var _ => []
  | num _ => []
  | add x y => denoms x ++ denoms y
  | mul x y => denoms x ++ denoms y
  | div x y => y :: (denoms x ++ denoms y)
  | pow x _ => denoms x
  | sin x => denoms x
  | cos x => denoms x
  | sqrt x => denoms x

end Ex

/-! ### Vectors

A vector is the triple of its measure numbers on the yaw-frame basis
`(Y.x, Y.y, Y.z)`; the frame algebra of SymPy's `Vector` (dot, cross, scalar
multiple, derivative) becomes componentwise expression algebra on a single
orthonormal right-handed basis. -/

/-- A symbolic vector: components on the `Y` basis. -/
abbrev Ex3 : Type := Ex × Ex × Ex

namespace Ex3

open Ex

/-- Componentwise interpretation of a symbolic vector. -/
noncomputable def evalV (ρ : V → ℝ) (u : Ex3) : ℝ × ℝ × ℝ :=
  (u.1.eval ρ, u.2.1.eval ρ, u.2.2.eval ρ)

/-- Vector addition. -/
def addV (u w : Ex3) : Ex3 :=
  (addS u.1 w.1, addS u.2.1 w.2.1, addS u.2.2 w.2.2)

/-- Vector subtraction. -/
def subV (u w : Ex3) : Ex3 :=
  (subS u.1 w.1, subS u.2.1 w.2.1, subS u.2.2 w.2.2)

/-- Scalar multiple. -/
def smulV (k : Ex) (u : Ex3) : Ex3 :=
  (mulS k u.1, mulS k u.2.1, mulS k u.2.2)

/-- Negation. -/
def negV (u : Ex3) : Ex3 := (negS u.1, negS u.2.1, negS u.2.2)

/-- Dot product on the orthonormal `Y` basis. -/
def dotE (u w : Ex3) : Ex :=
  addS (mulS u.1 w.1) (addS (mulS u.2.1 w.2.1) (mulS u.2.2 w.2.2))

/-- Cross product on the right-handed orthonormal `Y` basis. -/
def crossE (u w : Ex3) : Ex3 :=
  (subS (mulS u.2.1 w.2.2) (mulS u.2.2 w.2.1),
   subS (mulS u.2.2 w.1) (mulS u.1 w.2.2),
   subS (mulS u.1 w.2.1) (mulS u.2.1 w.1))

/-- Componentwise symbolic derivative by one symbol (SymPy's
`Vector.diff(v, N)`: the basis vectors do not depend on the generalized
speeds the script differentiates by). -/
def pdiffV (v : V) (u : Ex3) : Ex3 :=
  (pdiff v u.1, pdiff v u.2.1, pdiff v u.2.2)

/-- Componentwise time derivative: the derivative of the vector taken in the
`Y` frame. -/
def dtV (u : Ex3) : Ex3 := (dt u.1, dt u.2.1, dt u.2.2)

/-- Componentwise substitution (SymPy's `Vector.subs`). -/
def substV (σ : List (V × Ex)) (u : Ex3) : Ex3 :=
  (substD σ u.1, substD σ u.2.1, substD σ u.2.2)

/-- The zero vector. -/
def zeroV : Ex3 := (num 0, num 0, num 0)

end Ex3

/-! ### Real-valued vector algebra, for the semantic statements. -/

/-- Real dot product on ordered triples. -/
def dot3 (u w : ℝ × ℝ × ℝ) : ℝ :=
  u.1 * w.1 + (u.2.1 * w.2.1 + u.2.2 * w.2.2)

/-- Real cross product on ordered triples. -/
def cross3 (u w : ℝ × ℝ × ℝ) : ℝ × ℝ × ℝ :=
  (u.2.1 * w.2.2 - u.2.2 * w.2.1,
   u.2.2 * w.1 - u.1 * w.2.2,
   u.1 * w.2.1 - u.2.1 * w.1)

/-- Real vector addition on ordered triples. -/
def add3 (u w : ℝ × ℝ × ℝ) : ℝ × ℝ × ℝ := (u.1 + w.1, u.2.1 + w.2.1, u.2.2 + w.2.2)

/-- Real scalar multiple on ordered triples. -/
def smul3 (k : ℝ) (u : ℝ × ℝ × ℝ) : ℝ × ℝ × ℝ := (k * u.1, k * u.2.1, k * u.2.2)

/-- Real negation on ordered triples. -/
def neg3 (u : ℝ × ℝ × ℝ) : ℝ × ℝ × ℝ := (-u.1, -u.2.1, -u.2.2)

/-! ### The derivation, line by line

Source: `src/rattleback/ellipsoid_no_slip_steady.py`; line numbers refer to
it.  `Vector.simp = False` (line 5) means no trigonometric rewriting is ever
applied, which the embedding matches by never rewriting `sin`/`cos`. -/

open Ex Ex3

/-- Shorthand for a symbol as an expression. -/
def vr (v : V) : Ex := Ex.var v

/-- First basis vector of the yaw frame `Y` (line 20), on the `Y` basis. -/
def Yx : Ex3 := (num 1, num 0, num 0)

/-- Second basis vector of the yaw frame `Y`. -/
def Yy : Ex3 := (num 0, num 1, num 0)

/-- Third basis vector of the yaw frame `Y`; because `Y` is the yaw rotation
of `N` about `N.z`, this is also the inertial vertical `N.z`. -/
def Yz : Ex3 := (num 0, num 0, num 1)

/-- Lean frame `L = Y.orientnew('L', 'Axis', [q[1], Y.x])` (line 21):
rotation of the `Y` basis by `q1` about `Y.x`. -/
def Lx : Ex3 := Yx

/-- Second basis vector of the lean frame. -/
def Ly : Ex3 :=
  addV (smulV (Ex.cos (vr V.q1)) Yy) (smulV (Ex.sin (vr V.q1)) Yz)

/-- Third basis vector of the lean frame. -/
def Lz : Ex3 :=
  subV (smulV (Ex.cos (vr V.q1)) Yz) (smulV (Ex.sin (vr V.q1)) Yy)

/-- Body frame `R = L.orientnew('R', 'Axis', [q[2], L.y])` (line 22):
rotation of the `L` basis by `q2` about `L.y`. -/
def Rx : Ex3 :=
  subV (smulV (Ex.cos (vr V.q2)) Lx) (smulV (Ex.sin (vr V.q2)) Lz)

/-- Second basis vector of the body frame. -/
def Ry : Ex3 := Ly

/-- Third basis vector of the body frame. -/
def Rz : Ex3 :=
  addV (smulV (Ex.sin (vr V.q2)) Lx) (smulV (Ex.cos (vr V.q2)) Lz)

/-- The body basis as a family, in the order SymPy iterates a frame. -/
def Rbasis : Fin 3 → Ex3 := ![Rx, Ry, Rz]

/-- The generalized speeds, in order. -/
def qdsym : Fin 3 → V := ![V.qd0, V.qd1, V.qd2]

/-- The generalized coordinates, in order. -/
def qsym : Fin 3 → V := ![V.q0, V.q1, V.q2]

/-- Angular velocity of `R` in `N` as set on line 27:
`qd[0]*Y.z + qd[1]*Y.x + qd[2]*L.y`. -/
def angvel : Ex3 :=
  addV (smulV (vr V.qd0) Yz) (addV (smulV (vr V.qd1) Yx) (smulV (vr V.qd2) Ly))

/-- Direction cosines `mu = [dot(rk, Y.z) for rk in R]` (line 35): the
components of the vertical on the body basis. -/
def mu (k : Fin 3) : Ex := dotE (Rbasis k) Yz

/-- `eps = sqrt((a*mu[0])**2 + (b*mu[1])**2 + (c*mu[2])**2)` (line 36). -/
def eps : Ex :=
  Ex.sqrt (addS (addS (powS (mulS (vr V.a) (mu 0)) 2)
                      (powS (mulS (vr V.b) (mu 1)) 2))
                (powS (mulS (vr V.c) (mu 2)) 2))

/-- Position of the ellipsoid center `O` from the contact point `P`
(lines 37-39), as its measure numbers on the body basis:
`-a*a*mu[0]/eps` on `R.x`, `-b*b*mu[1]/eps` on `R.y`, `-c*c*mu[2]/eps` on
`R.z`. -/
def pos_O_from_P_R : Ex3 :=
  (divS (negS (mulS (mulS (vr V.a) (vr V.a)) (mu 0))) eps,
   divS (negS (mulS (mulS (vr V.b) (vr V.b)) (mu 1))) eps,
   divS (negS (mulS (mulS (vr V.c) (vr V.c)) (mu 2))) eps)

/-- Express a vector given by measure numbers on the body basis on the `Y`
basis. -/
def toY (u : Ex3) : Ex3 :=
  addV (smulV u.1 Rx) (addV (smulV u.2.1 Ry) (smulV u.2.2 Rz))

/-- Position of `O` from `P` on the working basis. -/
def pos_O_from_P : Ex3 := toY pos_O_from_P_R

/-- Position of the mass center `RO` from `O`: `d*R.x + e*R.y + f*R.z`
(line 43). -/
def pos_RO_from_O : Ex3 := toY (vr V.d, vr V.e, vr V.f)

/-- `O.set_vel(N, cross(R.ang_vel_in(N), O.pos_from(P)))` (line 40). -/
def vel_O : Ex3 := crossE angvel pos_O_from_P

/-- `RO.set_vel(N, O.vel(N) + cross(R.ang_vel_in(N), RO.pos_from(O)))`
(line 44). -/
def vel_RO : Ex3 := addV vel_O (crossE angvel pos_RO_from_O)

/-- Partial angular velocities `R.ang_vel_in(N).diff(qdi, N)` (line 47),
computed before the steady substitution. -/
def pw (i : Fin 3) : Ex3 := pdiffV (qdsym i) angvel

/-- Partial velocities `RO.vel(N).diff(qdi, N)` (line 48), computed before
the steady substitution. -/
def pv_RO (i : Fin 3) : Ex3 := pdiffV (qdsym i) vel_RO

/-- The steady-motion substitution (lines 50-51): lean rate, spin rate and
all speed derivatives are zero. -/
def steady_dict : List (V × Ex) :=
  [(V.qd1, num 0), (V.qd2, num 0),
   (V.qdd0, num 0), (V.qdd1, num 0), (V.qdd2, num 0)]

/-- `O.set_vel(N, O.vel(N).subs(steady_dict))` (line 54). -/
def vel_O_steady : Ex3 := substV steady_dict vel_O

/-- `RO.set_vel(N, RO.vel(N).subs(steady_dict))` (line 55). -/
def vel_RO_steady : Ex3 := substV steady_dict vel_RO

/-- `R.set_ang_vel(N, R.ang_vel_in(N).subs(steady_dict))` (line 56). -/
def angvel_steady : Ex3 := substV steady_dict angvel

/-- Kinematic angular velocity of the body frame `R` in the yaw frame `Y`,
from the two `orientnew` rotations: `qd[1]*Y.x + qd[2]*L.y`. -/
def angvel_R_in_Y : Ex3 := addV (smulV (vr V.qd1) Yx) (smulV (vr V.qd2) Ly)

/-- Derivative of a vector taken in the body frame `R` (SymPy's
`Vector.diff(t, R)`): the derivative taken in `Y` minus the transport term
of the rotation of `R` relative to `Y`. -/
def dtInR (u : Ex3) : Ex3 := subV (dtV u) (crossE angvel_R_in_Y u)

/-- The expression asserted to vanish on line 60:
`RO.vel(N).diff(t, R).subs(steady_dict)`, with `RO.vel(N)` the already
substituted steady velocity. -/
def steadyCheck : Ex3 := substV steady_dict (dtInR vel_RO_steady)

/-- `RO.set_acc(N, cross(R.ang_vel_in(N), RO.vel(N)))` (line 62), with the
substituted angular velocity and velocity. -/
def acc_RO : Ex3 := crossE angvel_steady vel_RO_steady

/-- Gravity `F_RO = m*g*Y.z` (line 65), the only applied force. -/
def F_RO : Ex3 := smulV (mulS (vr V.m) (vr V.g)) Yz

/-- Generalized active forces `gaf_RO = [dot(F_RO, pv) for pv in
partial_v_RO]` (line 68). -/
def gaf_RO (i : Fin 3) : Ex := dotE F_RO (pv_RO i)

/-- `R_star = -m*RO.acc(N)` (line 71). -/
def R_star : Ex3 := smulV (negS (vr V.m)) acc_RO

/-- The inertia dyadic `inertia(R, Ixx, Iyy, Izz, Ixy, Iyz, Ixz)` (line 24)
applied to a vector: on the body basis it is the symmetric matrix of inertia
scalars. -/
def inertiaDot (w : Ex3) : Ex3 :=
  toY (addS (mulS (vr V.Ixx) (dotE (Rbasis 0) w))
            (addS (mulS (vr V.Ixy) (dotE (Rbasis 1) w))
                  (mulS (vr V.Ixz) (dotE (Rbasis 2) w))),
       addS (mulS (vr V.Ixy) (dotE (Rbasis 0) w))
            (addS (mulS (vr V.Iyy) (dotE (Rbasis 1) w))
                  (mulS (vr V.Iyz) (dotE (Rbasis 2) w))),
       addS (mulS (vr V.Ixz) (dotE (Rbasis 0) w))
            (addS (mulS (vr V.Iyz) (dotE (Rbasis 1) w))
                  (mulS (vr V.Izz) (dotE (Rbasis 2) w))))

/-- `T_star = -cross(R.ang_vel_in(N), dot(I, R.ang_vel_in(N)))` (line 73),
with the steady angular velocity (angular acceleration is zero). -/
def T_star : Ex3 := negV (crossE angvel_steady (inertiaDot angvel_steady))

/-- `f_r[i] = gaf_RO[i].expand().collect(m*g)` (line 80); `expand` and
`collect` only reformat the expression (they preserve the value and the free
symbols), so the embedding keeps the assembled form. -/
def f_r (i : Fin 3) : Ex := gaf_RO i

/-- `f_r_star[i] = dot(R_star, partial_v_RO[i]) + dot(T_star, partial_w[i])`
(line 81); the trailing `.expand().collect(qd[0]**2)` again only reformats
the expression. -/
def f_r_star (i : Fin 3) : Ex := addS (dotE R_star (pv_RO i)) (dotE T_star (pw i))

/-- The steady dynamic equations `f_dyn[i] = f_r[i] + f_r_star[i]`
(line 82). -/
def f_dyn (i : Fin 3) : Ex := addS (f_r i) (f_r_star i)

/-- Modelled from the spec: SymPy's `Expr.coeff(qd[0]**2)` (line 96) is
library code and is not part of this repository; following §4.3 of the spec
("`h[1], h[3]` = coefficient of the squared-spin-rate term"), the
coefficient of `qd0 ** 2` of a residual that is a polynomial in `qd0` with
only the degrees 0 and 2 is recovered by interpolation between the spin
values 1 and 0. -/
def coeff_qd0sq (x : Ex) : Ex :=
  subS (substD [(V.qd0, num 1)] x) (substD [(V.qd0, num 0)] x)

/-- The reduced equations (lines 93-96): for `i` in 0..1,
`h[2*i] = f_dyn[i+1].subs({qd[0]: 0})` and
`h[2*i+1] = f_dyn[i+1].coeff(qd[0]**2)`. -/
def h : List Ex :=
  [substD [(V.qd0, num 0)] (f_dyn 1), coeff_qd0sq (f_dyn 1),
   substD [(V.qd0, num 0)] (f_dyn 2), coeff_qd0sq (f_dyn 2)]

/-- The eight derivatives (lines 99-102): for `i` in 0..3 and `j` in 0..1,
`dh[2*i + j] = h[i].diff(q[j+1])`. -/
def dh : List Ex :=
  [pdiff (qsym 1) (h.getD 0 (num 0)), pdiff (qsym 2) (h.getD 0 (num 0)),
   pdiff (qsym 1) (h.getD 1 (num 0)), pdiff (qsym 2) (h.getD 1 (num 0)),
   pdiff (qsym 1) (h.getD 2 (num 0)), pdiff (qsym 2) (h.getD 2 (num 0)),
   pdiff (qsym 1) (h.getD 3 (num 0)), pdiff (qsym 2) (h.getD 3 (num 0))]

/-- The renaming substitution (lines 105-106): dynamic symbols are replaced
by plain symbols for code output. -/
def symbol_dict : List (V × Ex) :=
  [(V.q1, vr V.pq1), (V.q2, vr V.pq2), (V.qd0, vr V.pqd0),
   (V.r0, vr V.prx), (V.r1, vr V.pry), (V.r2, vr V.prz)]

/-- The `h` list after the renaming loop (lines 108-109). -/
def h_out : List Ex := h.map (substD symbol_dict)

/-- The `dh` list after the renaming loop (lines 110-111). -/
def dh_out : List Ex := dh.map (substD symbol_dict)

/-! ### Common-subexpression elimination

`cse` and `numbered_symbols` (lines 114 and 126) are SymPy library code, not
code of this repository; the functions below are modelled from the spec's
contract (§4.4): given an ordered sequence of expressions, produce a table of
`(temporary, expression)` pairs and a reduced sequence such that substituting
the table back into the reduced sequence reproduces the original expressions
exactly; the elimination is deterministic, total, and numbers its
temporaries `z0, z1, ...` from index 0. -/

/-- Modelled from the spec: SymPy's `numbered_symbols('z')` generator — the
infinite family of temporary symbols `z0, z1, z2, ...`, starting at index
0. -/
def numbered_symbols (n : Nat) : V := V.z n

/-- Total number of occurrences of `tgt` as a subexpression of a list. -/
def countL (tgt : Ex) (es : List Ex) : Nat := (es.map (Ex.countE tgt)).sum

/-- All subexpressions of all members of a list. -/
def subAllL : List Ex → List Ex
  | [] => []
  | e :: es => e.subAll ++ subAllL es

/-- Modelled from the spec: the candidate subexpressions the elimination
names — the compound subexpressions occurring at least twice, in traversal
order, without duplicates. -/
def candidates (es : List Ex) : List Ex :=
  ((subAllL es).filter (fun x => x.nonAtom && decide (2 ≤ countL x es))).dedup

/-- Modelled from the spec: the elimination pass.  Each candidate in turn is
assigned the next numbered temporary and replaced everywhere (in the working
expressions and in the later candidates, so later table entries refer to
earlier temporaries). -/
def cseCore : Nat → List Ex → List Ex → List (V × Ex) × List Ex
  | _, [], es => ([], es)
  | k, e :: cs, es =>
      let r := Ex.replaceAll e (Ex.var (numbered_symbols k))
      let res := cseCore (k + 1) (cs.map r) (es.map r)
      ((numbered_symbols k, e) :: res.1, res.2)
termination_by _ cs _ => cs.length
decreasing_by simp [List.length_map]

/-- Modelled from the spec: SymPy's `cse(exprs, numbered_symbols('z'))` — the
table of temporaries together with the reduced expressions. -/
def cse (es : List Ex) : List (V × Ex) × List Ex := cseCore 0 (candidates es) es

/-- Substituting a CSE table back into reduced expressions: the table entries
are substituted in reverse order (later temporaries first, since later
entries may refer to earlier temporaries). -/
def restore : List (V × Ex) → List Ex → List Ex
  | [], es => es
  | (v, r) :: tab, es => (restore tab es).map (Ex.substVar v r)

/-- `z, h_red = cse(h, numbered_symbols('z'))` (line 114). -/
def cse_h : List (V × Ex) × List Ex := cse h_out

/-- `z, dh_red = cse(dh, numbered_symbols('z'))` (line 126). -/
def cse_dh : List (V × Ex) × List Ex := cse dh_out

/-! ### Control flow of the run -/

/-- The artifact the run writes: the rendered content is a deterministic
function of the two CSE runs, which is what the model keeps. -/
abbrev Artifact : Type := (List (V × Ex) × List Ex) × (List (V × Ex) × List Ex)

/-- The straight-line control flow of the script, abstracted over the
outcomes of its five assertions: line 60 (`a1`), the three passes of line 83
(`a2`..`a4`) and line 86 (`a5`).  A Python `assert` with a false condition
raises and aborts the run, so everything after it — in particular the single
write to the code sink (lines 142-144), which comes after both CSE runs and
the text rendering — is skipped; the returned list is the sequence of writes
performed. -/
def runScript (a1 a2 a3 a4 a5 : Bool) : List Artifact :=
  if a1 then
    if a2 then
      if a3 then
        if a4 then
          if a5 then [(cse_h, cse_dh)] else []
        else []
      else []
    else []
  else []

/-- The valuation a substitution induces: the value of a symbol after the
substitution. -/
noncomputable def substEnv (σ : List (V × Ex)) (ρ : V → ℝ) : V → ℝ :=
  fun w =>
    match List.lookup w σ with
    | some r => r.eval ρ
    | none => ρ w

/-- A concrete valuation separating `eps` from the quadratic form under its
square root: the semi-axis `c` is 4 and every other symbol is 0 (so the
direction cosines are `mu = (0, 0, 1)`, the quadratic form is 16 and `eps`
is 4). -/
noncomputable def cexVal : V → ℝ := fun v => if v = V.c then 4 else 0

/-!  ## Theorems

First the generic lemmas about the term language, then the claim theorems
about the derivation. -/

namespace Ex

theorem eval_addS (ρ : V → ℝ) (x y : Ex) :
    (addS x y).eval ρ = x.eval ρ + y.eval ρ := by
  unfold addS; split <;> simp [eval]

theorem eval_mulS (ρ : V → ℝ) (x y : Ex) :
    (mulS x y).eval ρ = x.eval ρ * y.eval ρ := by
  unfold mulS; split <;> simp [eval]

theorem eval_divS (ρ : V → ℝ) (x y : Ex) :
    (divS x y).eval ρ = x.eval ρ / y.eval ρ := by
  unfold divS; split <;> simp [eval]

theorem eval_powS (ρ : V → ℝ) (x : Ex) (n : Nat) :
    (powS x n).eval ρ = (x.eval ρ) ^ n := by
  unfold powS; split <;> simp [eval]

theorem eval_negS (ρ : V → ℝ) (x : Ex) :
    (negS x).eval ρ = -(x.eval ρ) := by
  simp [negS, eval_mulS, eval]

theorem eval_subS (ρ : V → ℝ) (x y : Ex) :
    (subS x y).eval ρ = x.eval ρ - y.eval ρ := by
  simp [subS, eval_addS, eval_negS]; ring

theorem eval_substD (σ : List (V × Ex)) (ρ : V → ℝ) (x : Ex) :
    (substD σ x).eval ρ = x.eval (substEnv σ ρ) := by
  induction x with
  | var w =>
      simp only [substD, eval, substEnv]
      cases List.lookup w σ <;> simp [eval]
  | num k => simp [substD, eval]
  | add x y ihx ihy => simp [substD, eval, eval_addS, ihx, ihy]
  | mul x y ihx ihy => simp [substD, eval, eval_mulS, ihx, ihy]
  | div x y ihx ihy => simp [substD, eval, eval_divS, ihx, ihy]
  | pow x n ih => simp [substD, eval, eval_powS, ih]
  | sin x ih => simp [substD, eval, ih]
  | cos x ih => simp [substD, eval, ih]
  | sqrt x ih => simp [substD, eval, ih]

theorem substEnv_single (v : V) (r : Ex) (ρ : V → ℝ) :
    substEnv [(v, r)] ρ = Function.update ρ v (r.eval ρ) := by
  funext w
  by_cases hw : w = v
  · subst hw; simp [substEnv, List.lookup]
  · simp [substEnv, List.lookup, Function.update, hw,
      beq_false_of_ne hw]

theorem eval_update_of_not_occursB (v : V) (x : Ex) (hocc : occursB v x = false)
    (ρ : V → ℝ) (t : ℝ) :
    x.eval (Function.update ρ v t) = x.eval ρ := by
  induction x with
  | var w =>
      simp only [occursB, decide_eq_false_iff_not] at hocc
      simp [eval, Function.update, hocc]
  | num k => simp [eval]
  | add x y ihx ihy =>
      simp only [occursB, Bool.or_eq_false_iff] at hocc
      simp [eval, ihx hocc.1, ihy hocc.2]
  | mul x y ihx ihy =>
      simp only [occursB, Bool.or_eq_false_iff] at hocc
      simp [eval, ihx hocc.1, ihy hocc.2]
  | div x y ihx ihy =>
      simp only [occursB, Bool.or_eq_false_iff] at hocc
      simp [eval, ihx hocc.1, ihy hocc.2]
  | pow x n ih => simp only [occursB] at hocc; simp [eval, ih hocc]
  | sin x ih => simp only [occursB] at hocc; simp [eval, ih hocc]
  | cos x ih => simp only [occursB] at hocc; simp [eval, ih hocc]
  | sqrt x ih => simp only [occursB] at hocc; simp [eval, ih hocc]

theorem eval_derivA_zero (ρ : V → ℝ) (dv : V → Ex) (x : Ex)
    (hdv : ∀ w, occursB w x = true → (dv w).eval ρ = 0) :
    (derivA dv x).eval ρ = 0 := by
  induction x with
  | var w => exact hdv w (by simp [occursB])
  | num k => simp [derivA, eval]
  | add x y ihx ihy =>
      simp only [derivA, eval_addS]
      rw [ihx (fun w hw => hdv w (by simp [occursB, hw])),
        ihy (fun w hw => hdv w (by simp [occursB, hw]))]
      ring
  | mul x y ihx ihy =>
      simp only [derivA, eval_addS, eval_mulS]
      rw [ihx (fun w hw => hdv w (by simp [occursB, hw])),
        ihy (fun w hw => hdv w (by simp [occursB, hw]))]
      ring
  | div x y ihx ihy =>
      simp only [derivA, eval_divS, eval_subS, eval_mulS]
      rw [ihx (fun w hw => hdv w (by simp [occursB, hw])),
        ihy (fun w hw => hdv w (by simp [occursB, hw]))]
      norm_num
  | pow x n ih =>
      by_cases hn : n = 0
      · simp [derivA, hn, eval]
      · simp only [derivA, hn, if_false, eval_mulS]
        rw [ih (fun w hw => hdv w (by simp [occursB, hw]))]
        ring
  | sin x ih =>
      simp only [derivA, eval_mulS]
      rw [ih (fun w hw => hdv w (by simp [occursB, hw]))]
      ring
  | cos x ih =>
      simp only [derivA, eval_mulS]
      rw [ih (fun w hw => hdv w (by simp [occursB, hw]))]
      ring
  | sqrt x ih =>
      simp only [derivA, eval_divS]
      rw [ih (fun w hw => hdv w (by simp [occursB, hw]))]
      norm_num

theorem eval_pdiff_of_not_occursB (v : V) (x : Ex) (hocc : occursB v x = false)
    (ρ : V → ℝ) : (pdiff v x).eval ρ = 0 := by
  refine eval_derivA_zero ρ _ x (fun w hw => ?_)
  by_cases hwv : w = v
  · subst hwv; rw [hw] at hocc; cases hocc
  · simp [hwv, eval]

theorem eval_update_of_hdeg (v : V) (x : Ex) :
    ∀ n : Nat, hdeg v x = some n → ∀ (ρ : V → ℝ) (t : ℝ),
      x.eval (Function.update ρ v t) = t ^ n * x.eval (Function.update ρ v 1) := by
  induction x with
  | var w =>
      intro n hd ρ t
      by_cases hwv : w = v
      · subst hwv
        simp [hdeg] at hd
        subst hd
        simp [eval]
      · simp only [hdeg, if_neg hwv, Option.some.injEq] at hd
        subst hd
        simp [eval, Function.update_noteq hwv]
  | num k =>
      intro n hd ρ t
      simp only [hdeg, Option.some.injEq] at hd
      subst hd
      simp [eval]
  | add x y ihx ihy =>
      intro n hd ρ t
      simp only [hdeg] at hd
      rcases hx : hdeg v x with _ | i <;> rcases hy : hdeg v y with _ | j <;>
        rw [hx, hy] at hd <;> simp only [hdAdd, Option.bind] at hd
      · cases hd
      · cases hd
      · cases hd
      · by_cases hij : i = j
        · subst hij
          rw [if_pos rfl, Option.some.injEq] at hd
          subst hd
          simp only [eval]
          rw [ihx _ hx ρ t, ihy _ hy ρ t]
          ring
        · rw [if_neg hij] at hd; cases hd
  | mul x y ihx ihy =>
      intro n hd ρ t
      simp only [hdeg] at hd
      rcases hx : hdeg v x with _ | i <;> rcases hy : hdeg v y with _ | j <;>
        rw [hx, hy] at hd <;> simp only [hdMul, Option.bind] at hd
      · cases hd
      · cases hd
      · cases hd
      · rw [Option.some.injEq] at hd
        subst hd
        simp only [eval]
        rw [ihx _ hx ρ t, ihy _ hy ρ t, pow_add]
        ring
  | div x y ihx ihy =>
      intro n hd ρ t
      simp only [hdeg] at hd
      rcases hx : hdeg v x with _ | i <;> rcases hy : hdeg v y with _ | j <;>
        rw [hx, hy] at hd <;> simp only [hdDiv, Option.bind] at hd
      · cases hd
      · cases hd
      · cases hd
      · by_cases hj : j = 0
        · subst hj
          rw [if_pos rfl, Option.some.injEq] at hd
          subst hd
          simp only [eval]
          rw [ihx _ hx ρ t, ihy _ hy ρ t]
          simp [mul_div_assoc]
        · rw [if_neg hj] at hd; cases hd
  | pow x k ih =>
      intro n hd ρ t
      simp only [hdeg] at hd
      rcases hx : hdeg v x with _ | i <;> rw [hx] at hd <;>
        simp only [hdPow, Option.map] at hd
      · cases hd
      · rw [Option.some.injEq] at hd
        subst hd
        simp only [eval]
        rw [ih _ hx ρ t, mul_pow, ← pow_mul]
  | sin x ih =>
      intro n hd ρ t
      simp only [hdeg] at hd
      rcases hx : hdeg v x with _ | j <;> rw [hx] at hd <;>
        simp only [hdArg, Option.bind] at hd
      · cases hd
      · by_cases hj : j = 0
        · subst hj
          rw [if_pos rfl, Option.some.injEq] at hd
          subst hd
          simp only [eval]
          rw [ih _ hx ρ t]
          simp
        · rw [if_neg hj] at hd; cases hd
  | cos x ih =>
      intro n hd ρ t
      simp only [hdeg] at hd
      rcases hx : hdeg v x with _ | j <;> rw [hx] at hd <;>
        simp only [hdArg, Option.bind] at hd
      · cases hd
      · by_cases hj : j = 0
        · subst hj
          rw [if_pos rfl, Option.some.injEq] at hd
          subst hd
          simp only [eval]
          rw [ih _ hx ρ t]
          simp
        · rw [if_neg hj] at hd; cases hd
  | sqrt x ih =>
      intro n hd ρ t
      simp only [hdeg] at hd
      rcases hx : hdeg v x with _ | j <;> rw [hx] at hd <;>
        simp only [hdArg, Option.bind] at hd
      · cases hd
      · by_cases hj : j = 0
        · subst hj
          rw [if_pos rfl, Option.some.injEq] at hd
          subst hd
          simp only [eval]
          rw [ih _ hx ρ t]
          simp
        · rw [if_neg hj] at hd; cases hd

end Ex

namespace Ex3

open Ex

theorem evalV_addV (ρ : V → ℝ) (u w : Ex3) :
    evalV ρ (addV u w) = add3 (evalV ρ u) (evalV ρ w) := by
  simp [evalV, addV, add3, eval_addS]

theorem evalV_subV (ρ : V → ℝ) (u w : Ex3) :
    evalV ρ (subV u w) = add3 (evalV ρ u) (neg3 (evalV ρ w)) := by
  simp [evalV, subV, add3, neg3, eval_subS]; exact ⟨by ring, by ring, by ring⟩

theorem evalV_smulV (ρ : V → ℝ) (k : Ex) (u : Ex3) :
    evalV ρ (smulV k u) = smul3 (k.eval ρ) (evalV ρ u) := by
  simp [evalV, smulV, smul3, eval_mulS]

theorem evalV_negV (ρ : V → ℝ) (u : Ex3) :
    evalV ρ (negV u) = neg3 (evalV ρ u) := by
  simp [evalV, negV, neg3, eval_negS]

theorem eval_dotE (ρ : V → ℝ) (u w : Ex3) :
    (dotE u w).eval ρ = dot3 (evalV ρ u) (evalV ρ w) := by
  simp [dotE, dot3, evalV, eval_addS, eval_mulS]

theorem evalV_crossE (ρ : V → ℝ) (u w : Ex3) :
    evalV ρ (crossE u w) = cross3 (evalV ρ u) (evalV ρ w) := by
  simp [crossE, cross3, evalV, eval_subS, eval_mulS]

theorem evalV_substV (σ : List (V × Ex)) (ρ : V → ℝ) (u : Ex3) :
    evalV ρ (substV σ u) = evalV (substEnv σ ρ) u := by
  simp [evalV, substV, eval_substD]

end Ex3

/-! ### The CSE round-trip, generically -/

namespace Ex

theorem substVar_replaceAll (v : V) (e : Ex) (x : Ex)
    (hocc : occursB v x = false) :
    substVar v e (replaceAll e (var v) x) = x := by
  induction x with
  | var w =>
      simp only [occursB, decide_eq_false_iff_not] at hocc
      by_cases hx : Ex.var w = e
      · simp only [replaceAll, if_pos hx, substVar, if_pos rfl]
        exact hx.symm
      · simp [replaceAll, hx, substVar, hocc]
  | num k =>
      by_cases hx : Ex.num k = e
      · simp only [replaceAll, if_pos hx, substVar, if_pos rfl]
        exact hx.symm
      · simp [replaceAll, hx, substVar]
  | add x y ihx ihy =>
      simp only [occursB, Bool.or_eq_false_iff] at hocc
      by_cases hx : Ex.add x y = e
      · simp only [replaceAll, if_pos hx, substVar, if_pos rfl]
        exact hx.symm
      · simp [replaceAll, hx, substVar, ihx hocc.1, ihy hocc.2]
  | mul x y ihx ihy =>
      simp only [occursB, Bool.or_eq_false_iff] at hocc
      by_cases hx : Ex.mul x y = e
      · simp only [replaceAll, if_pos hx, substVar, if_pos rfl]
        exact hx.symm
      · simp [replaceAll, hx, substVar, ihx hocc.1, ihy hocc.2]
  | div x y ihx ihy =>
      simp only [occursB, Bool.or_eq_false_iff] at hocc
      by_cases hx : Ex.div x y = e
      · simp only [replaceAll, if_pos hx, substVar, if_pos rfl]
        exact hx.symm
      · simp [replaceAll, hx, substVar, ihx hocc.1, ihy hocc.2]
  | pow x n ih =>
      simp only [occursB] at hocc
      by_cases hx : Ex.pow x n = e
      · simp only [replaceAll, if_pos hx, substVar, if_pos rfl]
        exact hx.symm
      · simp [replaceAll, hx, substVar, ih hocc]
  | sin x ih =>
      simp only [occursB] at hocc
      by_cases hx : Ex.sin x = e
      · simp only [replaceAll, if_pos hx, substVar, if_pos rfl]
        exact hx.symm
      · simp [replaceAll, hx, substVar, ih hocc]
  | cos x ih =>
      simp only [occursB] at hocc
      by_cases hx : Ex.cos x = e
      · simp only [replaceAll, if_pos hx, substVar, if_pos rfl]
        exact hx.symm
      · simp [replaceAll, hx, substVar, ih hocc]
  | sqrt x ih =>
      simp only [occursB] at hocc
      by_cases hx : Ex.sqrt x = e
      · simp only [replaceAll, if_pos hx, substVar, if_pos rfl]
        exact hx.symm
      · simp [replaceAll, hx, substVar, ih hocc]

theorem zFree_mono {j k : Nat} (hjk : j ≤ k) {x : Ex} (hx : zFree j x = true) :
    zFree k x = true := by
  induction x with
  | var w =>
      cases w <;> simp_all [zFree]
      omega
  | num _ => simp [zFree]
  | add x y ihx ihy => simp_all [zFree]
  | mul x y ihx ihy => simp_all [zFree]
  | div x y ihx ihy => simp_all [zFree]
  | pow x n ih => simp_all [zFree]
  | sin x ih => simp_all [zFree]
  | cos x ih => simp_all [zFree]
  | sqrt x ih => simp_all [zFree]

theorem not_occurs_of_zFree {k : Nat} {x : Ex} (hx : zFree k x = true) :
    occursB (V.z k) x = false := by
  induction x with
  | var w =>
      cases w <;> simp_all [zFree, occursB]
      omega
  | num _ => simp [occursB]
  | add x y ihx ihy => simp_all [zFree, occursB]
  | mul x y ihx ihy => simp_all [zFree, occursB]
  | div x y ihx ihy => simp_all [zFree, occursB]
  | pow x n ih => simp_all [zFree, occursB]
  | sin x ih => simp_all [zFree, occursB]
  | cos x ih => simp_all [zFree, occursB]
  | sqrt x ih => simp_all [zFree, occursB]

theorem zFree_replaceAll {k : Nat} (e : Ex) {x : Ex} (hx : zFree k x = true) :
    zFree (k + 1) (replaceAll e (var (V.z k)) x) = true := by
  have hz : zFree (k + 1) (var (V.z k)) = true := by
    simp [zFree]
  induction x with
  | var w =>
      by_cases hxe : Ex.var w = e
      · simpa [replaceAll, hxe] using hz
      · simpa [replaceAll, hxe] using zFree_mono (Nat.le_succ k) hx
  | num kk =>
      by_cases hxe : Ex.num kk = e
      · simpa [replaceAll, hxe] using hz
      · simp [replaceAll, hxe, zFree]
  | add x y ihx ihy =>
      simp only [zFree, Bool.and_eq_true] at hx
      by_cases hxe : Ex.add x y = e
      · simpa [replaceAll, hxe] using hz
      · simp [replaceAll, hxe, zFree, ihx hx.1, ihy hx.2]
  | mul x y ihx ihy =>
      simp only [zFree, Bool.and_eq_true] at hx
      by_cases hxe : Ex.mul x y = e
      · simpa [replaceAll, hxe] using hz
      · simp [replaceAll, hxe, zFree, ihx hx.1, ihy hx.2]
  | div x y ihx ihy =>
      simp only [zFree, Bool.and_eq_true] at hx
      by_cases hxe : Ex.div x y = e
      · simpa [replaceAll, hxe] using hz
      · simp [replaceAll, hxe, zFree, ihx hx.1, ihy hx.2]
  | pow x n ih =>
      simp only [zFree] at hx
      by_cases hxe : Ex.pow x n = e
      · simpa [replaceAll, hxe] using hz
      · simp [replaceAll, hxe, zFree, ih hx]
  | sin x ih =>
      simp only [zFree] at hx
      by_cases hxe : Ex.sin x = e
      · simpa [replaceAll, hxe] using hz
      · simp [replaceAll, hxe, zFree, ih hx]
  | cos x ih =>
      simp only [zFree] at hx
      by_cases hxe : Ex.cos x = e
      · simpa [replaceAll, hxe] using hz
      · simp [replaceAll, hxe, zFree, ih hx]
  | sqrt x ih =>
      simp only [zFree] at hx
      by_cases hxe : Ex.sqrt x = e
      · simpa [replaceAll, hxe] using hz
      · simp [replaceAll, hxe, zFree, ih hx]

theorem mem_subAll_self (x : Ex) : x ∈ x.subAll := by
  cases x <;> simp [Ex.subAll]

theorem countE_pos_mem {tgt : Ex} : ∀ {x : Ex}, 1 ≤ countE tgt x → tgt ∈ x.subAll := by
  intro x
  induction x with
  | var w =>
      intro hc
      by_cases hx : Ex.var w = tgt
      · rw [← hx]; exact mem_subAll_self _
      · simp [countE, hx] at hc
  | num k =>
      intro hc
      by_cases hx : Ex.num k = tgt
      · rw [← hx]; exact mem_subAll_self _
      · simp [countE, hx] at hc
  | add x y ihx ihy =>
      intro hc
      by_cases hx : Ex.add x y = tgt
      · rw [← hx]; exact mem_subAll_self _
      · simp only [countE, hx, if_false, Nat.zero_add] at hc
        simp only [subAll, List.mem_cons, List.mem_append]
        have hor : 1 ≤ countE tgt x ∨ 1 ≤ countE tgt y := by omega
        exact hor.elim (fun hcx => Or.inr (Or.inl (ihx hcx)))
          (fun hcy => Or.inr (Or.inr (ihy hcy)))
  | mul x y ihx ihy =>
      intro hc
      by_cases hx : Ex.mul x y = tgt
      · rw [← hx]; exact mem_subAll_self _
      · simp only [countE, hx, if_false, Nat.zero_add] at hc
        simp only [subAll, List.mem_cons, List.mem_append]
        have hor : 1 ≤ countE tgt x ∨ 1 ≤ countE tgt y := by omega
        exact hor.elim (fun hcx => Or.inr (Or.inl (ihx hcx)))
          (fun hcy => Or.inr (Or.inr (ihy hcy)))
  | div x y ihx ihy =>
      intro hc
      by_cases hx : Ex.div x y = tgt
      · rw [← hx]; exact mem_subAll_self _
      · simp only [countE, hx, if_false, Nat.zero_add] at hc
        simp only [subAll, List.mem_cons, List.mem_append]
        have hor : 1 ≤ countE tgt x ∨ 1 ≤ countE tgt y := by omega
        exact hor.elim (fun hcx => Or.inr (Or.inl (ihx hcx)))
          (fun hcy => Or.inr (Or.inr (ihy hcy)))
  | pow x n ih =>
      intro hc
      by_cases hx : Ex.pow x n = tgt
      · rw [← hx]; exact mem_subAll_self _
      · simp only [countE, hx, if_false, Nat.zero_add] at hc
        simp only [subAll, List.mem_cons]
        exact Or.inr (ih hc)
  | sin x ih =>
      intro hc
      by_cases hx : Ex.sin x = tgt
      · rw [← hx]; exact mem_subAll_self _
      · simp only [countE, hx, if_false, Nat.zero_add] at hc
        simp only [subAll, List.mem_cons]
        exact Or.inr (ih hc)
  | cos x ih =>
      intro hc
      by_cases hx : Ex.cos x = tgt
      · rw [← hx]; exact mem_subAll_self _
      · simp only [countE, hx, if_false, Nat.zero_add] at hc
        simp only [subAll, List.mem_cons]
        exact Or.inr (ih hc)
  | sqrt x ih =>
      intro hc
      by_cases hx : Ex.sqrt x = tgt
      · rw [← hx]; exact mem_subAll_self _
      · simp only [countE, hx, if_false, Nat.zero_add] at hc
        simp only [subAll, List.mem_cons]
        exact Or.inr (ih hc)

theorem zFree_of_mem_subAll {k : Nat} :
    ∀ {e x : Ex}, zFree k e = true → x ∈ e.subAll → zFree k x = true := by
  intro e
  induction e with
  | var w =>
      intro x he hx
      simp only [subAll, List.mem_singleton] at hx
      subst hx; exact he
  | num kk =>
      intro x he hx
      simp only [subAll, List.mem_singleton] at hx
      subst hx; exact he
  | add a b iha ihb =>
      intro x he hx
      simp only [zFree, Bool.and_eq_true] at he
      simp only [subAll, List.mem_cons, List.mem_append] at hx
      rcases hx with rfl | hx | hx
      · simp [zFree, he.1, he.2]
      · exact iha he.1 hx
      · exact ihb he.2 hx
  | mul a b iha ihb =>
      intro x he hx
      simp only [zFree, Bool.and_eq_true] at he
      simp only [subAll, List.mem_cons, List.mem_append] at hx
      rcases hx with rfl | hx | hx
      · simp [zFree, he.1, he.2]
      · exact iha he.1 hx
      · exact ihb he.2 hx
  | div a b iha ihb =>
      intro x he hx
      simp only [zFree, Bool.and_eq_true] at he
      simp only [subAll, List.mem_cons, List.mem_append] at hx
      rcases hx with rfl | hx | hx
      · simp [zFree, he.1, he.2]
      · exact iha he.1 hx
      · exact ihb he.2 hx
  | pow a n ih =>
      intro x he hx
      simp only [zFree] at he
      simp only [subAll, List.mem_cons] at hx
      rcases hx with rfl | hx
      · simp [zFree, he]
      · exact ih he hx
  | sin a ih =>
      intro x he hx
      simp only [zFree] at he
      simp only [subAll, List.mem_cons] at hx
      rcases hx with rfl | hx
      · simp [zFree, he]
      · exact ih he hx
  | cos a ih =>
      intro x he hx
      simp only [zFree] at he
      simp only [subAll, List.mem_cons] at hx
      rcases hx with rfl | hx
      · simp [zFree, he]
      · exact ih he hx
  | sqrt a ih =>
      intro x he hx
      simp only [zFree] at he
      simp only [subAll, List.mem_cons] at hx
      rcases hx with rfl | hx
      · simp [zFree, he]
      · exact ih he hx

end Ex

theorem mem_subAllL {x : Ex} :
    ∀ {es : List Ex}, x ∈ subAllL es ↔ ∃ e ∈ es, x ∈ e.subAll := by
  intro es
  induction es with
  | nil => simp [subAllL]
  | cons e es ih =>
      simp only [subAllL, List.mem_append, ih, List.mem_cons]
      constructor
      · rintro (hx | ⟨y, hy, hxy⟩)
        · exact ⟨e, Or.inl rfl, hx⟩
        · exact ⟨y, Or.inr hy, hxy⟩
      · rintro ⟨y, rfl | hy, hxy⟩
        · exact Or.inl hxy
        · exact Or.inr ⟨y, hy, hxy⟩

theorem countL_pos_exists {tgt : Ex} :
    ∀ {es : List Ex}, 1 ≤ countL tgt es → ∃ e ∈ es, 1 ≤ Ex.countE tgt e := by
  intro es
  induction es with
  | nil => intro hc; simp [countL] at hc
  | cons e es ih =>
      intro hc
      simp only [countL, List.map_cons, List.sum_cons] at hc
      by_cases hce : 1 ≤ Ex.countE tgt e
      · exact ⟨e, List.mem_cons_self e es, hce⟩
      · have : 1 ≤ countL tgt es := by
          simp only [countL]; omega
        obtain ⟨y, hy, hcy⟩ := ih this
        exact ⟨y, List.mem_cons_of_mem e hy, hcy⟩

theorem candidates_zFree {k : Nat} {es : List Ex}
    (hes : ∀ x ∈ es, Ex.zFree k x = true) :
    ∀ x ∈ candidates es, Ex.zFree k x = true := by
  intro x hx
  have hx' := List.mem_dedup.mp hx
  obtain ⟨hmem, _⟩ := List.mem_filter.mp hx'
  obtain ⟨e, he, hsub⟩ := mem_subAllL.mp hmem
  exact Ex.zFree_of_mem_subAll (hes e he) hsub

theorem candidates_ne_nil {es : List Ex} (x : Ex) (hna : x.nonAtom = true)
    (hcnt : 2 ≤ countL x es) : candidates es ≠ [] := by
  have h1 : 1 ≤ countL x es := by omega
  obtain ⟨e, he, hce⟩ := countL_pos_exists h1
  have hmem : x ∈ subAllL es := mem_subAllL.mpr ⟨e, he, Ex.countE_pos_mem hce⟩
  have hx : x ∈ candidates es :=
    List.mem_dedup.mpr (List.mem_filter.mpr ⟨hmem, by simp [hna, hcnt]⟩)
  exact List.ne_nil_of_mem hx

theorem restore_cseCore_aux :
    ∀ (n : Nat) (cs : List Ex), cs.length = n → ∀ (k : Nat) (es : List Ex),
      (∀ x ∈ es, Ex.zFree k x = true) → (∀ x ∈ cs, Ex.zFree k x = true) →
      restore (cseCore k cs es).1 (cseCore k cs es).2 = es := by
  intro n
  induction n with
  | zero =>
      intro cs hlen k es _ _
      rw [List.length_eq_zero] at hlen
      subst hlen
      simp [cseCore, restore]
  | succ n ihn =>
      intro cs hlen k es hes hcs
      rcases cs with _ | ⟨e, cs⟩
      · cases hlen
      · have hlen' : (cs.map (Ex.replaceAll e (Ex.var (V.z k)))).length = n := by
          simpa using Nat.succ.inj hlen
        have hes' : ∀ x ∈ es.map (Ex.replaceAll e (Ex.var (V.z k))),
            Ex.zFree (k + 1) x = true := by
          intro x hx
          rcases List.mem_map.mp hx with ⟨y, hy, rfl⟩
          exact Ex.zFree_replaceAll e (hes y hy)
        have hcs' : ∀ x ∈ cs.map (Ex.replaceAll e (Ex.var (V.z k))),
            Ex.zFree (k + 1) x = true := by
          intro x hx
          rcases List.mem_map.mp hx with ⟨y, hy, rfl⟩
          exact Ex.zFree_replaceAll e (hcs y (List.mem_cons_of_mem e hy))
        simp only [cseCore, restore, numbered_symbols]
        rw [ihn _ hlen' (k + 1) _ hes' hcs', List.map_map]
        have hid : ∀ x ∈ es,
            (Ex.substVar (V.z k) e ∘ Ex.replaceAll e (Ex.var (V.z k))) x = x := by
          intro x hx
          exact Ex.substVar_replaceAll (V.z k) e x
            (Ex.not_occurs_of_zFree (hes x hx))
        rw [List.map_congr_left hid]
        simp

theorem restore_cseCore (k : Nat) (cs es : List Ex)
    (hes : ∀ x ∈ es, Ex.zFree k x = true)
    (hcs : ∀ x ∈ cs, Ex.zFree k x = true) :
    restore (cseCore k cs es).1 (cseCore k cs es).2 = es :=
  restore_cseCore_aux cs.length cs rfl k es hes hcs

theorem cseCore_syms_aux :
    ∀ (n : Nat) (cs : List Ex), cs.length = n → ∀ (k : Nat) (es : List Ex),
      ((cseCore k cs es).1).map Prod.fst
        = (List.range cs.length).map (fun j => V.z (k + j)) := by
  intro n
  induction n with
  | zero =>
      intro cs hlen k es
      rw [List.length_eq_zero] at hlen
      subst hlen
      simp [cseCore]
  | succ n ihn =>
      intro cs hlen k es
      rcases cs with _ | ⟨e, cs⟩
      · cases hlen
      · have hlen' : (cs.map (Ex.replaceAll e (Ex.var (V.z k)))).length = n := by
          simpa using Nat.succ.inj hlen
        simp only [cseCore, numbered_symbols, List.map_cons, List.length_cons]
        rw [ihn _ hlen' (k + 1), hlen', List.range_succ_eq_map, List.map_cons,
          List.map_map, Nat.add_zero]
        have hlen2 : cs.length = n := Nat.succ.inj hlen
        rw [hlen2]
        congr 1
        refine List.map_congr_left (fun j _ => ?_)
        simp only [Function.comp]
        congr 1
        omega

theorem cseCore_syms (k : Nat) (cs es : List Ex) :
    ((cseCore k cs es).1).map Prod.fst
      = (List.range cs.length).map (fun j => V.z (k + j)) :=
  cseCore_syms_aux cs.length cs rfl k es

/-! ### Shared facts about the derivation

Computed once on the concrete expression trees and shared by the claim
theorems below. -/

theorem eval_var (ρ : V → ℝ) (v : V) : (Ex.var v).eval ρ = ρ v := rfl

theorem eval_num (ρ : V → ℝ) (k : Int) : (Ex.num k).eval ρ = (k : ℝ) := rfl

/-- The steady angular velocity is `qd0 * Y.z`. -/
theorem angvel_steady_eq : angvel_steady = (Ex.num 0, Ex.num 0, Ex.var V.qd0) := by
  decide

/-- The partial angular velocity for the yaw rate is `Y.z`. -/
theorem pw_zero_eq : pw 0 = (Ex.num 0, Ex.num 0, Ex.num 1) := by decide

/-- Line 60: the derivative of the steady mass-center velocity taken in the
body frame vanishes identically under the steady substitution — the
expression collapses to the zero vector, as SymPy's automatic evaluation
finds. -/
theorem steadyCheck_eq_zeroV : steadyCheck = Ex3.zeroV := by decide

/-- Line 83: the symbolic yaw derivative of each steady dynamic equation is
the zero expression (no scalar of the derivation mentions `q0`). -/
theorem pdiff_q0_f_dyn (i : Fin 3) : Ex.pdiff (qsym 0) (f_dyn i) = Ex.num 0 := by
  fin_cases i <;> decide

/-- The yaw-rate partial velocity is the transport with `Y.z` of the two
position legs (chain rule on `v = ω × r`, with `r` speed-free). -/
theorem pv_RO_zero_eq :
    pv_RO 0 = addV (crossE (Ex.num 0, Ex.num 0, Ex.num 1) pos_O_from_P)
      (crossE (Ex.num 0, Ex.num 0, Ex.num 1) pos_RO_from_O) := by decide

/-- The steady velocity is the transport with the steady angular velocity of
the two position legs. -/
theorem vel_RO_steady_eq :
    vel_RO_steady = addV (crossE angvel_steady pos_O_from_P)
      (crossE angvel_steady pos_RO_from_O) := by decide

/-- Line 86: the first steady dynamic equation vanishes identically — the
semantic content of `assert(f_dyn[0] == 0)` after `expand`. -/
theorem f_dyn_zero_eval (ρ : V → ℝ) : (f_dyn 0).eval ρ = 0 := by
  have hpv := pv_RO_zero_eq
  have hw := angvel_steady_eq
  have hvs := vel_RO_steady_eq
  have hpw := pw_zero_eq
  show (Ex.addS (f_r 0) (f_r_star 0)).eval ρ = 0
  rw [Ex.eval_addS]
  simp only [f_r, gaf_RO, f_r_star, Ex.eval_addS, R_star, T_star, acc_RO, F_RO]
  rw [hpv, hvs, hw, hpw]
  simp only [Ex3.eval_dotE, Ex3.evalV_addV, Ex3.evalV_crossE, Ex3.evalV_smulV,
    Ex3.evalV_negV]
  simp only [Yz, Ex3.evalV, Ex.eval, Ex.eval_mulS, Ex.eval_negS, Int.cast_zero,
    Int.cast_one]
  simp only [dot3, cross3, add3, smul3, neg3]
  ring

/-- The active part of each steady dynamic equation is spin-free, and the
inertia part is homogeneous of degree two in the spin rate; hence the
residual is an even quadratic in `qd0`. -/
theorem fdyn_quadratic (i : Fin 3)
    (hocc : Ex.occursB V.qd0 (f_r i) = false)
    (hdg : Ex.hdeg V.qd0 (f_r_star i) = some 2)
    (ρ : V → ℝ) (t : ℝ) :
    (f_dyn i).eval (Function.update ρ V.qd0 t)
      = (f_r i).eval ρ + t ^ 2 * (f_r_star i).eval (Function.update ρ V.qd0 1) := by
  show (Ex.addS (f_r i) (f_r_star i)).eval _ = _
  rw [Ex.eval_addS, Ex.eval_update_of_not_occursB _ _ hocc,
    Ex.eval_update_of_hdeg _ _ _ hdg]

/-- The twelve output expressions contain no CSE temporaries (freshness of
the `z`-namespace for both runs). -/
theorem h_out_zFree : ∀ x ∈ h_out, Ex.zFree 0 x = true := by decide

/-- The eight renamed derivative expressions contain no CSE temporaries. -/
theorem dh_out_zFree : ∀ x ∈ dh_out, Ex.zFree 0 x = true := by decide

/-- The friction symbol `s` occurs in none of the four output equations. -/
theorem h_out_sFree : ∀ x ∈ h_out, Ex.occursB V.s x = false := by decide

/-- The friction symbol `s` occurs in none of the eight output
derivatives. -/
theorem dh_out_sFree : ∀ x ∈ dh_out, Ex.occursB V.s x = false := by decide

/-- The subexpression `cos(q1)` repeats in the `h` output family, so its CSE
run names at least one temporary. -/
theorem h_out_repeat : 2 ≤ countL (Ex.cos (Ex.var V.pq1)) h_out := by decide

/-- The subexpression `cos(q1)` repeats in the `dh` output family, so its
CSE run names at least one temporary. -/
theorem dh_out_repeat : 2 ≤ countL (Ex.cos (Ex.var V.pq1)) dh_out := by decide

/-- The `h` CSE table numbers its temporaries `z0, z1, ...` in order. -/
theorem cse_h_syms : cse_h.1.map Prod.fst
    = (List.range (candidates h_out).length).map numbered_symbols := by
  have hs := cseCore_syms 0 (candidates h_out) h_out
  show (cseCore 0 (candidates h_out) h_out).1.map Prod.fst = _
  rw [hs]
  exact List.map_congr_left (fun j _ => by simp [numbered_symbols])

/-- The `dh` CSE table numbers its temporaries `z0, z1, ...` in order. -/
theorem cse_dh_syms : cse_dh.1.map Prod.fst
    = (List.range (candidates dh_out).length).map numbered_symbols := by
  have hs := cseCore_syms 0 (candidates dh_out) dh_out
  show (cseCore 0 (candidates dh_out) dh_out).1.map Prod.fst = _
  rw [hs]
  exact List.map_congr_left (fun j _ => by simp [numbered_symbols])

/-- Both CSE tables contain the temporary `z0`. -/
theorem z0_mem_both : V.z 0 ∈ cse_h.1.map Prod.fst
    ∧ V.z 0 ∈ cse_dh.1.map Prod.fst := by
  constructor
  · have hne : candidates h_out ≠ [] :=
      candidates_ne_nil (Ex.cos (Ex.var V.pq1)) (by decide) h_out_repeat
    rw [cse_h_syms]
    exact List.mem_map.mpr
      ⟨0, List.mem_range.mpr (List.length_pos.mpr hne), by simp [numbered_symbols]⟩
  · have hne : candidates dh_out ≠ [] :=
      candidates_ne_nil (Ex.cos (Ex.var V.pq1)) (by decide) dh_out_repeat
    rw [cse_dh_syms]
    exact List.mem_map.mpr
      ⟨0, List.mem_range.mpr (List.length_pos.mpr hne), by simp [numbered_symbols]⟩

/-! ### The claims -/

/-- C1: for each of the two CSE runs (one over the four `h` expressions, one
over the eight `dh` expressions), substituting the run's temporary-variable
table back into its reduced expressions reproduces the corresponding pre-CSE
expression exactly, as symbolic equality, for every index of the
sequence. -/
theorem claim_C1 : restore cse_h.1 cse_h.2 = h_out
    ∧ restore cse_dh.1 cse_dh.2 = dh_out :=
  ⟨restore_cseCore 0 (candidates h_out) h_out h_out_zFree
      (candidates_zFree h_out_zFree),
   restore_cseCore 0 (candidates dh_out) dh_out dh_out_zFree
      (candidates_zFree dh_out_zFree)⟩

/-- C2: for every `i` in `{0,1,2}`, the `i`-th steady dynamical residual
`f_dyn[i]` has symbolic partial derivative with respect to the yaw
coordinate `q[0]` identically zero (it is the zero expression, and its value
is zero at every valuation), so the assertion on line 83 passes for each
residual and its failure branch is unreachable. -/
theorem claim_C2 (i : Fin 3) :
    Ex.pdiff (qsym 0) (f_dyn i) = Ex.num 0
    ∧ ∀ ρ : V → ℝ, (Ex.pdiff (qsym 0) (f_dyn i)).eval ρ = 0 := by
  refine ⟨pdiff_q0_f_dyn i, fun ρ => ?_⟩
  rw [pdiff_q0_f_dyn i]
  simp [eval_num]

/-- C3: the time derivative of the mass-center velocity `RO.vel(N)`, taken
in the body frame `R`, with the steady-motion substitution applied, is
exactly the zero vector (structurally, and in value at every valuation);
this is checked before the acceleration is formed via `cross(omega, v)`. -/
theorem claim_C3 : steadyCheck = Ex3.zeroV
    ∧ ∀ ρ : V → ℝ, Ex3.evalV ρ steadyCheck = (0, 0, 0) := by
  refine ⟨steadyCheck_eq_zeroV, fun ρ => ?_⟩
  rw [steadyCheck_eq_zeroV]
  simp [Ex3.zeroV, Ex3.evalV, eval_num]

/-- C4: the first of the three steady dynamical residuals, `f_dyn[0]` (the
yaw equation), is identically zero under the steady-motion substitution, so
the assertion `f_dyn[0] == 0` on line 86 passes, leaving exactly the two
nontrivial equations `f_dyn[1]` and `f_dyn[2]`. -/
theorem claim_C4 : ∀ ρ : V → ℝ, (f_dyn 0).eval ρ = 0 :=
  f_dyn_zero_eval

/-- C5: the derivative family `dh` has exactly 8 entries and `h` exactly 4,
and for every `i` in 0..3 and `j` in 0..1, `dh[2*i+j]` equals the symbolic
partial derivative of `h[i]` with respect to the `(j+1)`-th generalized
coordinate (`q[1]` = lean for `j = 0`, `q[2]` = pitch for `j = 1`), in
row-major order. -/
theorem claim_C5 : h.length = 4 ∧ dh.length = 8
    ∧ ∀ (i : Fin 4) (j : Fin 2),
        dh.getD (2 * i.val + j.val) (Ex.num 0)
          = Ex.pdiff (qsym j.succ) (h.getD i.val (Ex.num 0)) := by
  refine ⟨rfl, rfl, fun i j => ?_⟩
  fin_cases i <;> fin_cases j <;> rfl

/-- C6 counterexample: the two CSE runs both draw their temporaries from a
fresh `numbered_symbols('z')` generator starting at index 0, so the two
tables are not disjoint: the temporary symbol `z0` appears in both
tables. -/
theorem claim_C6_counterexample : V.z 0 ∈ cse_h.1.map Prod.fst
    ∧ V.z 0 ∈ cse_dh.1.map Prod.fst :=
  z0_mem_both

/-- C6 (amended): the two CSE runs each use a freshly numbered
temporary-symbol namespace beginning at index 0 — the `i`-th temporary of
each table is `z i` — and consequently the two tables share temporary
symbols rather than being disjoint: both (nonempty) tables contain `z0`. -/
theorem claim_C6_amended :
    cse_h.1.map Prod.fst
        = (List.range (candidates h_out).length).map numbered_symbols
    ∧ cse_dh.1.map Prod.fst
        = (List.range (candidates dh_out).length).map numbered_symbols
    ∧ V.z 0 ∈ cse_h.1.map Prod.fst
    ∧ V.z 0 ∈ cse_dh.1.map Prod.fst :=
  ⟨cse_h_syms, cse_dh_syms, z0_mem_both.1, z0_mem_both.2⟩

/-- C7 counterexample: the claim identifies `eps` with the quadratic form of
the three scaled direction cosines, `(a*mu0)^2 + (b*mu1)^2 + (c*mu2)^2`, but
the program (line 36) takes the square root of that form: at the valuation
with `c = 4` and every other symbol 0 the program's `eps` evaluates to 4
while the quadratic form evaluates to 16, so `eps` is not the quadratic
form. -/
theorem claim_C7_counterexample :
    eps.eval cexVal ≠ (cexVal V.a * (mu 0).eval cexVal) ^ 2
      + (cexVal V.b * (mu 1).eval cexVal) ^ 2
      + (cexVal V.c * (mu 2).eval cexVal) ^ 2 := by
  have hm0 : mu 0
      = Ex.mul (Ex.num (-1)) (Ex.mul (Ex.sin (Ex.var V.q2)) (Ex.cos (Ex.var V.q1))) := by
    decide
  have hm1 : mu 1 = Ex.sin (Ex.var V.q1) := by decide
  have hm2 : mu 2 = Ex.mul (Ex.cos (Ex.var V.q2)) (Ex.cos (Ex.var V.q1)) := by
    decide
  have h0 : (mu 0).eval cexVal = 0 := by
    rw [hm0]; simp [Ex.eval, cexVal]
  have h1 : (mu 1).eval cexVal = 0 := by
    rw [hm1]; simp [Ex.eval, cexVal]
  have h2 : (mu 2).eval cexVal = 1 := by
    rw [hm2]; simp [Ex.eval, cexVal]
  have hq : (cexVal V.a * (mu 0).eval cexVal) ^ 2
      + (cexVal V.b * (mu 1).eval cexVal) ^ 2
      + (cexVal V.c * (mu 2).eval cexVal) ^ 2 = 16 := by
    rw [h0, h1, h2]
    simp [cexVal]
    norm_num
  have he : eps.eval cexVal = 4 := by
    have hs : eps.eval cexVal
        = Real.sqrt ((cexVal V.a * (mu 0).eval cexVal) ^ 2
            + (cexVal V.b * (mu 1).eval cexVal) ^ 2
            + (cexVal V.c * (mu 2).eval cexVal) ^ 2) := rfl
    rw [hs, hq, show (16 : ℝ) = 4 ^ 2 by norm_num,
      Real.sqrt_sq (by norm_num : (0:ℝ) ≤ 4)]
  rw [he, hq]
  norm_num

/-- C7 (amended): the position of the ellipsoid center `O` relative to the
contact point `P` is
`-(a^2*mu0/eps)*R.x - (b^2*mu1/eps)*R.y - (c^2*mu2/eps)*R.z`, where `mu_k`
is the component of the inertial vertical along the `k`-th body basis
direction and `eps` is the square root of the quadratic form of the three
scaled direction cosines, `sqrt((a*mu0)^2 + (b*mu1)^2 + (c*mu2)^2)`; the
only division in the closed form is the division by `eps`. -/
theorem claim_C7 (ρ : V → ℝ) :
    pos_O_from_P_R.1.eval ρ = -((ρ V.a) ^ 2 * (mu 0).eval ρ) / eps.eval ρ
    ∧ pos_O_from_P_R.2.1.eval ρ = -((ρ V.b) ^ 2 * (mu 1).eval ρ) / eps.eval ρ
    ∧ pos_O_from_P_R.2.2.eval ρ = -((ρ V.c) ^ 2 * (mu 2).eval ρ) / eps.eval ρ
    ∧ eps.eval ρ = Real.sqrt ((ρ V.a * (mu 0).eval ρ) ^ 2
        + (ρ V.b * (mu 1).eval ρ) ^ 2 + (ρ V.c * (mu 2).eval ρ) ^ 2)
    ∧ (pos_O_from_P_R.1.denoms = [eps] ∧ pos_O_from_P_R.2.1.denoms = [eps]
        ∧ pos_O_from_P_R.2.2.denoms = [eps]) := by
  refine ⟨?_, ?_, ?_, rfl, by decide⟩
  · show (Ex.divS (Ex.negS (Ex.mulS (Ex.mulS (vr V.a) (vr V.a)) (mu 0)))
        eps).eval ρ = _
    rw [Ex.eval_divS, Ex.eval_negS, Ex.eval_mulS, Ex.eval_mulS]
    simp only [vr, eval_var]
    ring
  · show (Ex.divS (Ex.negS (Ex.mulS (Ex.mulS (vr V.b) (vr V.b)) (mu 1)))
        eps).eval ρ = _
    rw [Ex.eval_divS, Ex.eval_negS, Ex.eval_mulS, Ex.eval_mulS]
    simp only [vr, eval_var]
    ring
  · show (Ex.divS (Ex.negS (Ex.mulS (Ex.mulS (vr V.c) (vr V.c)) (mu 2)))
        eps).eval ρ = _
    rw [Ex.eval_divS, Ex.eval_negS, Ex.eval_mulS, Ex.eval_mulS]
    simp only [vr, eval_var]
    ring

/-- C8: the single write to the code sink happens only when every assertion
of the run has succeeded — for every combination of assertion outcomes, the
run writes the complete artifact exactly once when all five assertions pass
and writes nothing at all otherwise — and the five assertion conditions do
hold on this derivation (the steady kinematic check collapses to zero, the
three yaw derivatives are the zero expression, and the first residual
vanishes at every valuation). -/
theorem claim_C8 :
    (∀ a1 a2 a3 a4 a5 : Bool,
        runScript a1 a2 a3 a4 a5
          = if a1 && a2 && a3 && a4 && a5 then [(cse_h, cse_dh)] else [])
    ∧ steadyCheck = Ex3.zeroV
    ∧ (∀ i : Fin 3, Ex.pdiff (qsym 0) (f_dyn i) = Ex.num 0)
    ∧ (∀ ρ : V → ℝ, (f_dyn 0).eval ρ = 0) := by
  refine ⟨fun a1 a2 a3 a4 a5 => ?_, steadyCheck_eq_zeroV, pdiff_q0_f_dyn,
    f_dyn_zero_eval⟩
  cases a1 <;> cases a2 <;> cases a3 <;> cases a4 <;> cases a5 <;>
    simp [runScript]

/-- C9: the declared viscous friction coefficient symbol `s` occurs in none
of the twelve output expressions — structurally absent from every `h[i]` and
every `dh[i]`, so their values do not depend on `s` at any valuation. -/
theorem claim_C9 :
    h_out.map (Ex.occursB V.s) = [false, false, false, false]
    ∧ dh_out.map (Ex.occursB V.s) = List.replicate 8 false
    ∧ (∀ (i : Fin 4) (ρ : V → ℝ) (t : ℝ),
        (h_out.getD i.val (Ex.num 0)).eval (Function.update ρ V.s t)
          = (h_out.getD i.val (Ex.num 0)).eval ρ)
    ∧ (∀ (i : Fin 8) (ρ : V → ℝ) (t : ℝ),
        (dh_out.getD i.val (Ex.num 0)).eval (Function.update ρ V.s t)
          = (dh_out.getD i.val (Ex.num 0)).eval ρ) := by
  refine ⟨?_, ?_, fun i ρ t => ?_, fun i ρ t => ?_⟩
  · exact List.map_congr_left (fun x hx => h_out_sFree x hx) |>.trans rfl
  · exact List.map_congr_left (fun x hx => dh_out_sFree x hx) |>.trans rfl
  · have hlen : i.val < h_out.length := i.isLt
    rw [List.getD_eq_getElem h_out (Ex.num 0) hlen]
    exact Ex.eval_update_of_not_occursB _ _
      (h_out_sFree _ (List.getElem_mem hlen)) ρ t
  · have hlen : i.val < dh_out.length := i.isLt
    rw [List.getD_eq_getElem dh_out (Ex.num 0) hlen]
    exact Ex.eval_update_of_not_occursB _ _
      (dh_out_sFree _ (List.getElem_mem hlen)) ρ t

/-- C10: for each `k` in `{0,1}`, the nontrivial steady residual
`f_dyn[k+1]` is exactly affine in the squared spin rate: as a function of
the spin rate it equals `h[2k] + h[2k+1]*qd0^2`, with no term of any other
degree in `qd0`; in particular the extracted pair (zero-spin residual,
squared-spin coefficient) reconstructs the residual exactly. -/
theorem claim_C10 (k : Fin 2) :
    (∀ (ρ : V → ℝ) (x : ℝ),
        (f_dyn k.succ).eval (Function.update ρ V.qd0 x)
          = (h.getD (2 * k.val) (Ex.num 0)).eval ρ
            + (h.getD (2 * k.val + 1) (Ex.num 0)).eval ρ * x ^ 2)
    ∧ (∀ ρ : V → ℝ,
        (f_dyn k.succ).eval ρ
          = (h.getD (2 * k.val) (Ex.num 0)).eval ρ
            + (h.getD (2 * k.val + 1) (Ex.num 0)).eval ρ * (ρ V.qd0) ^ 2) := by
  have main : ∀ (ρ : V → ℝ) (x : ℝ),
      (f_dyn k.succ).eval (Function.update ρ V.qd0 x)
        = (h.getD (2 * k.val) (Ex.num 0)).eval ρ
          + (h.getD (2 * k.val + 1) (Ex.num 0)).eval ρ * x ^ 2 := by
    intro ρ x
    fin_cases k
    · show (f_dyn 1).eval (Function.update ρ V.qd0 x)
          = (h.getD 0 (Ex.num 0)).eval ρ + (h.getD 1 (Ex.num 0)).eval ρ * x ^ 2
      have hocc : Ex.occursB V.qd0 (f_r 1) = false := by decide
      have hdg : Ex.hdeg V.qd0 (f_r_star 1) = some 2 := by decide
      have h0 : h.getD 0 (Ex.num 0) = Ex.substD [(V.qd0, Ex.num 0)] (f_dyn 1) :=
        rfl
      have h1 : h.getD 1 (Ex.num 0) = coeff_qd0sq (f_dyn 1) := rfl
      rw [h0, h1]
      simp only [coeff_qd0sq, Ex.eval_subS, Ex.eval_substD, Ex.substEnv_single]
      simp only [eval_num, Int.cast_zero, Int.cast_one]
      rw [fdyn_quadratic 1 hocc hdg ρ x, fdyn_quadratic 1 hocc hdg ρ 0,
        fdyn_quadratic 1 hocc hdg ρ 1]
      ring
    · show (f_dyn 2).eval (Function.update ρ V.qd0 x)
          = (h.getD 2 (Ex.num 0)).eval ρ + (h.getD 3 (Ex.num 0)).eval ρ * x ^ 2
      have hocc : Ex.occursB V.qd0 (f_r 2) = false := by decide
      have hdg : Ex.hdeg V.qd0 (f_r_star 2) = some 2 := by decide
      have h0 : h.getD 2 (Ex.num 0) = Ex.substD [(V.qd0, Ex.num 0)] (f_dyn 2) :=
        rfl
      have h1 : h.getD 3 (Ex.num 0) = coeff_qd0sq (f_dyn 2) := rfl
      rw [h0, h1]
      simp only [coeff_qd0sq, Ex.eval_subS, Ex.eval_substD, Ex.substEnv_single]
      simp only [eval_num, Int.cast_zero, Int.cast_one]
      rw [fdyn_quadratic 2 hocc hdg ρ x, fdyn_quadratic 2 hocc hdg ρ 0,
        fdyn_quadratic 2 hocc hdg ρ 1]
      ring
  refine ⟨main, fun ρ => ?_⟩
  have hx := main ρ (ρ V.qd0)
  rwa [Function.update_eq_self] at hx

end EllipsoidSteady

